/-
Verification of the share reconciliation engine
(`backend/dataall/tasks/share_manager.py`).

The development shallowly embeds the pure core of each `ShareManager`
method: JSON policy documents become Lean structures, the external AWS
calls become oracles or explicit state, exceptions become `Option` /
`Except`, and the SQLAlchemy queries become list comprehensions over
row types.  Each claim about the engine is then settled as a theorem
about these definitions.
-/
import Mathlib

deriving instance DecidableEq for Except

namespace ShareManager

/- ### Python `in` on strings (substring containment)

The source tests substring containment three times:
`bucket_name not in ",".join(resources)`,
`f'{id}:*' not in existing_policy` (a raw JSON string), and the two
benign-failure message checks in `batch_revoke_permissions`. -/

/-- Substring test on character lists, mirroring Python's `pat in s`. -/
def containsSeq (pat : List Char) : List Char → Bool
  | [] => pat.isEmpty
  | c :: rest => pat.isPrefixOf (c :: rest) || containsSeq pat rest

/-- Python's `pat in s` for strings. -/
def strContains (s pat : String) : Bool :=
  containsSeq pat.data s.data

/- ### `sep.join(xs)` / the comma joins the source performs -/

/-- Python `sep.join(xs)`. -/
def joinSep (sep : String) : List String → String
  | [] => ""
  | [s] => s
  | s :: rest => s ++ sep ++ joinSep sep rest

/- ### Policy documents

A JSON policy statement, restricted to the keys the share manager reads
and writes.  Fields whose JSON value may be either a scalar string or a
list of strings (`Resource`, condition values, `s3:prefix`) are given
the sum type `SVal`; the `Condition` object `{op: {key: val}}` is
flattened to the three fields `condOp`/`condKey`/`condVal`. -/

/-- A JSON value that is either a scalar string or a list of strings. -/
inductive SVal where
  | s (v : String)
  | l (vs : List String)
deriving DecidableEq, Repr

/-- Normalisation performed by the source before membership checks:
`if isinstance(x, str): x = [x]`. -/
def svalList : SVal → List String
  | .s v => [v]
  | .l vs => vs

structure Stmt where
  sid : Option String := none
  effect : String := ""
  principal : String := ""
  action : SVal := .l []
  resource : SVal := .l []
  condOp : String := ""
  condKey : String := ""
  condVal : SVal := .l []
deriving DecidableEq, Repr

/-- A policy document; only its `Statement` array is relevant to the
mutations under study. -/
structure Policy where
  statements : List Stmt
deriving DecidableEq, Repr

/- Serialisation (the model of `json.dumps`) — the key-policy step of
the source checks membership of `f'{role_id}:*'` in the *serialised*
policy string, so the embedding must produce one. -/

def serSVal : SVal → String
  | .s v => "\"" ++ v ++ "\""
  | .l vs => "[" ++ joinSep ", " (vs.map (fun v => "\"" ++ v ++ "\"")) ++ "]"

def serStmt (st : Stmt) : String :=
  "\x7b\"Sid\": " ++
    (match st.sid with
     | none => "null"
     | some v => "\"" ++ v ++ "\"") ++
  ", \"Effect\": \"" ++ st.effect ++
  "\", \"Principal\": \"" ++ st.principal ++
  "\", \"Action\": " ++ serSVal st.action ++
  ", \"Resource\": " ++ serSVal st.resource ++
  ", \"Condition\": \x7b\"" ++ st.condOp ++ "\": \x7b\"" ++ st.condKey ++
  "\": " ++ serSVal st.condVal ++ "\x7d\x7d\x7d"

def serPolicy (p : Policy) : String :=
  "\x7b\"Statement\": [" ++ joinSep ", " (p.statements.map serStmt) ++ "]\x7d"

/- ### §4.4 step 1 — `ShareManager.manage_bucket_policy`

Pure content of the read-modify-write: the bucket policy read from S3
is the input document, the document handed to `create_bucket_policy`
(or left untouched by the early `return`) is the output.  The role-id
computation (`SessionHelper.get_role_ids`) is external; its result
`exceptions_roleId` is a parameter. -/

def allow_owner_access (excIds : List String) (bucket : String) : Stmt :=
  { sid := some "AllowAllToAdmin"
    effect := "Allow"
    principal := "*"
    action := .s "s3:*"
    resource := .l ["arn:aws:s3:::" ++ bucket, "arn:aws:s3:::" ++ bucket ++ "/*"]
    condOp := "StringLike"
    condKey := "aws:userId"
    condVal := .l excIds }

def delegated_to_accesspoint (source_account_id bucket : String) : Stmt :=
  { sid := some "DelegateAccessToAccessPoint"
    effect := "Allow"
    principal := "*"
    action := .s "s3:*"
    resource := .l ["arn:aws:s3:::" ++ bucket, "arn:aws:s3:::" ++ bucket ++ "/*"]
    condOp := "StringEquals"
    condKey := "s3:DataAccessPointAccount"
    condVal := .s source_account_id }

def manage_bucket_policy (excIds : List String) (source_account_id bucket : String)
    (doc : Policy) : Policy :=
  if doc.statements.any (fun st =>
      st.sid == some "AllowAllToAdmin" || st.sid == some "DelegateAccessToAccessPoint")
  then doc
  else ⟨doc.statements ++
        [allow_owner_access excIds bucket, delegated_to_accesspoint source_account_id bucket]⟩

/- ### Python dict machinery for `manage_access_point_and_policy`

`statements = {item["Sid"]: item for item in policy["Statement"]}` builds
an insertion-ordered dict (re-inserting an existing key keeps its
position and replaces its value); a statement without a `Sid` key is a
`KeyError`, modelled as `none`. -/

abbrev StmtDict := List (String × Stmt)

def dictHasKey (m : StmtDict) (k : String) : Bool :=
  m.any (fun kv => kv.1 == k)

def dictInsert (m : StmtDict) (k : String) (v : Stmt) : StmtDict :=
  if dictHasKey m k then m.map (fun kv => if kv.1 == k then (k, v) else kv)
  else m ++ [(k, v)]

def buildDict : StmtDict → List Stmt → Option StmtDict
  | m, [] => some m
  | m, st :: rest =>
    match st.sid with
    | some k => buildDict (dictInsert m k st) rest
    | none => none

def dictGet (m : StmtDict) (k : String) : Option Stmt :=
  (m.find? (fun kv => kv.1 == k)).map Prod.snd

/-- `list(statements.values())`. -/
def dictValues (m : StmtDict) : List Stmt :=
  m.map (fun kv => kv.2)

/- ### §4.4 step 3 — `ShareManager.manage_access_point_and_policy` -/

/-- Modelled from the spec: `S3.generate_access_point_policy_template`
lives in the AWS handler layer, which is not part of the source tree.
Per §4.4 and the §8 scenario, the template carries the pair of
statements keyed by the target role's numeric id — Sid `<roleId>0`
holding the `StringLike` `s3:prefix` condition with prefix list
`[<prefix>/*]` over the access-point resource, and Sid `<roleId>1`
holding the object-arn resource list
`[<accessPointArn>/object/<prefix>/*]`. -/
def template_prefix_statement (tid arn pfx : String) : Stmt :=
  { sid := some (tid ++ "0")
    effect := "Allow"
    principal := "*"
    action := .s "s3:ListBucket"
    resource := .s arn
    condOp := "StringLike"
    condKey := "s3:prefix"
    condVal := .l [pfx ++ "/*"] }

def template_object_statement (tid arn pfx : String) : Stmt :=
  { sid := some (tid ++ "1")
    effect := "Allow"
    principal := "*"
    action := .s "s3:GetObject"
    resource := .l [arn ++ "/object/" ++ pfx ++ "/*"] }

def generate_access_point_policy_template (tid arn pfx : String) : List Stmt :=
  [template_prefix_statement tid arn pfx, template_object_statement tid arn pfx]

/-- The admin-bypass statement stamped on first creation of the
access-point policy. -/
def access_point_admin_statement (excIds : List String) (arn : String) : Stmt :=
  { sid := some "AllowAllToAdmin"
    effect := "Allow"
    principal := "*"
    action := .s "s3:*"
    resource := .s arn
    condOp := "StringLike"
    condKey := "aws:userId"
    condVal := .l excIds }

/-- The access-point slice of external state: whether the access point
exists, and its policy document (`S3.get_access_point_policy` returns
nothing when no policy is attached). -/
structure APState where
  accessPointExists : Bool
  policy : Option Policy
deriving DecidableEq, Repr

/-- `ShareManager.manage_access_point_and_policy`.  `tid` is the target
role's numeric id (`SessionHelper.get_role_id`), `excIds` the admin
exception ids, `arn` the (deterministic) access-point ARN whether
fetched or created, `pfx` the folder's S3 prefix.  `none` models an
uncaught `KeyError` (statement without `Sid`, or Sid `<tid>0` present
without the expected condition shape or without Sid `<tid>1`). -/
def manage_access_point_and_policy (tid : String) (excIds : List String)
    (arn pfx : String) (st : APState) : Option APState :=
  match st.policy with
  | some p =>
    match buildDict [] p.statements with
    | none => none
    | some d =>
      match dictGet d (tid ++ "0") with
      | some s0 =>
        if s0.condOp == "StringLike" && s0.condKey == "s3:prefix" then
          let pl := svalList s0.condVal
          let d1 := if pl.contains (pfx ++ "/*") then d
                    else dictInsert d (tid ++ "0")
                      { s0 with condVal := SVal.l (pl ++ [pfx ++ "/*"]) }
          match dictGet d1 (tid ++ "1") with
          | some s1 =>
            let rl := svalList s1.resource
            let d2 := if rl.contains (arn ++ "/object/" ++ pfx ++ "/*") then d1
                      else dictInsert d1 (tid ++ "1")
                        { s1 with resource := SVal.l (rl ++ [arn ++ "/object/" ++ pfx ++ "/*"]) }
            some { accessPointExists := true, policy := some ⟨dictValues d2⟩ }
          | none => none
        else none
      | none =>
        some { accessPointExists := true
               policy := some ⟨p.statements ++ generate_access_point_policy_template tid arn pfx⟩ }
  | none =>
    some { accessPointExists := true
           policy := some ⟨generate_access_point_policy_template tid arn pfx ++
                           [access_point_admin_statement excIds arn]⟩ }

/-- Well-formedness of the pre-existing access-point policy under which
the access-point step is idempotent: statement Sids are pairwise
distinct, and the `<roleId>1` Sid is only present together with its
`<roleId>0` companion. -/
def goodSids (tid : String) (st : APState) : Prop :=
  match st.policy with
  | none => True
  | some p =>
    (p.statements.map Stmt.sid).Nodup ∧
    (some (tid ++ "1") ∈ p.statements.map Stmt.sid →
     some (tid ++ "0") ∈ p.statements.map Stmt.sid)

/-- The association list the Sid-keyed dict comprehension produces on a
statement list with all-distinct, all-present Sids. -/
def pairs (l : List Stmt) : StmtDict :=
  l.map (fun s => (s.sid.getD "", s))

/-- Invariant of every dict the source builds: each value carries the
Sid it is keyed by. -/
def WellKeyed (m : StmtDict) : Prop :=
  ∀ kv ∈ m, kv.2.sid = some kv.1

def dictKeys (m : StmtDict) : List String :=
  m.map Prod.fst

/- ### §4.4 step 4 — `ShareManager.update_dataset_bucket_key_policy` -/

def key_policy_statement (tid : String) : Stmt :=
  { sid := some tid
    effect := "Allow"
    principal := "*"
    action := .s "kms:Decrypt"
    resource := .s "*"
    condOp := "StringLike"
    condKey := "aws:userId"
    condVal := .s (tid ++ ":*") }

/-- `ShareManager.update_dataset_bucket_key_policy`: the guard is a raw
substring test `f'{tid}:*' not in existing_policy` on the *serialised*
key policy; `none` models an absent key policy (falsy string). -/
def update_dataset_bucket_key_policy (tid : String) (st : Option Policy) : Option Policy :=
  match st with
  | none => none
  | some p =>
    if strContains (serPolicy p) (tid ++ ":*") then some p
    else some ⟨p.statements ++ [key_policy_statement tid]⟩

/- ### §4.4 step 2 — `ShareManager.grant_target_role_access_policy` -/

/-- The document handed to `IAM.update_role_policy`, or `skip` for the
early `return`.  `writeNull` is `json.dumps(policy)` where
`policy = list.extend(...)`, i.e. the JSON document `null`. -/
inductive PolicyWrite where
  | skip
  | writeNull
  | write (p : Policy)
deriving DecidableEq, Repr

def target_role_fresh_policy (bucket apName region account : String) : Policy :=
  ⟨[{ effect := "Allow"
      action := .l ["s3:*"]
      resource := .l
        [ "arn:aws:s3:::" ++ bucket
        , "arn:aws:s3:::" ++ bucket ++ "/*"
        , "arn:aws:s3:" ++ region ++ ":" ++ account ++ ":accesspoint/" ++ apName
        , "arn:aws:s3:" ++ region ++ ":" ++ account ++ ":accesspoint/" ++ apName ++ "/*" ] }]⟩

/-- `ShareManager.grant_target_role_access_policy`.  `existing` is
`IAM.get_role_policy(..., "targetDatasetAccessControlPolicy")`; the
result is what is written back.  `none` models the uncaught Python
errors (`Statement[0]` on an empty list, `.extend` on a scalar
string).  Note `",".join(x)` over a scalar string joins its
characters. -/
def grant_target_role_access_policy (bucket apName region account : String)
    (existing : Option Policy) : Option PolicyWrite :=
  match existing with
  | some p =>
    match p.statements with
    | [] => none
    | s0 :: _ =>
      let joined := match s0.resource with
        | .l rs => joinSep "," rs
        | .s v => joinSep "," (v.data.map (fun c => String.singleton c))
      if !(strContains joined bucket) then
        match s0.resource with
        | .s _ => none
        | .l _ => some .writeNull
      else some .skip
  | none => some (.write (target_role_fresh_policy bucket apName region account))

/- ### `ShareManager.batch_revoke_permissions`

The LakeFormation client is an oracle mapping an entry chunk to either
a `ClientError` (the call itself raising) or its reported per-entry
`Failures` list. -/

structure ClientErr where
  code : String
  message : String
deriving DecidableEq, Repr

structure LFFailure where
  errorCode : String
  errorMessage : String
deriving DecidableEq, Repr

/-- The benign "already in desired state" test applied to each recorded
failure in the `except` handler. -/
def benign_failure (f : LFFailure) : Bool :=
  f.errorCode == "InvalidInputException" &&
    (strContains f.errorMessage "Grantee has no permissions" ||
     strContains f.errorMessage "No permissions revoked")

/-- `[entries[i : i + 20] for i in range(0, len(entries), 20)]`
(structural, via a length fuel so that it evaluates by `decide`). -/
def chunkAux : Nat → List α → List (List α)
  | 0, _ => []
  | _ + 1, [] => []
  | n + 1, a :: l => (a :: l).take 20 :: chunkAux n ((a :: l).drop 20)

def chunksOf20 (l : List α) : List (List α) :=
  chunkAux l.length l

/-- The `for entries_chunk in entries_chunks` loop: accumulated
`Failures` so far, plus the `ClientError` of the first chunk call that
itself raised (aborting the loop), if any. -/
def runChunks (api : List α → Except ClientErr (List LFFailure)) :
    List (List α) → List LFFailure → List LFFailure × Option ClientErr
  | [], acc => (acc, none)
  | c :: cs, acc =>
    match api c with
    | .ok fs => runChunks api cs (acc ++ fs)
    | .error e => (acc, some e)

/-- The synthetic error raised when the loop completes with a non-empty
`Failures` list. -/
def batch_revoke_failures_error : ClientErr :=
  ⟨"LakeFormation.batch_revoke_permissions", "Operation ended with failures"⟩

/-- `ShareManager.batch_revoke_permissions`: chunk, call, accumulate
reported failures, raise on any failure, then re-raise from the handler
only if some *recorded* failure is not benign. -/
def batch_revoke_permissions (api : List α → Except ClientErr (List LFFailure))
    (entries : List α) : Except ClientErr Unit :=
  let r := runChunks api (chunksOf20 entries) []
  match r.2 with
  | some e => if r.1.any (fun f => !(benign_failure f)) then .error e else .ok ()
  | none =>
    if r.1.isEmpty then .ok ()
    else if r.1.any (fun f => !(benign_failure f)) then .error batch_revoke_failures_error
    else .ok ()

/-- `ShareManager.revoke_iamallowedgroups_super_permission_from_table`:
one revoke entry for principal `EVERYONE`, with the whole call wrapped
in `except ClientError: log.warning(...)`. -/
def revoke_iamallowedgroups_super_permission_from_table
    (api : List α → Except ClientErr (List LFFailure)) (entry : α) :
    Except ClientErr Unit :=
  match batch_revoke_permissions api [entry] with
  | .ok _ => .ok ()
  | .error _ => .ok ()

/- ### §4.5 — `ShareManager.clean_shared_database`

Inputs: the names listed in the target account's shadow database
(`Glue.list_glue_database_tables`), the `GlueTableName`s of this
share's table items, the DB oracle `isShared` (the Approved
`ShareObjectItem` join for this dataset and target environment) and the
Glue oracle `tableExists` (the table still exists at the source).
Output: the names revoked (via `batch_revoke_permissions` on the source
account) and the names handed to `Glue.batch_delete_tables`. -/

def clean_shared_database :
    List String → List String → (String → Bool) → (String → Bool) →
    List String × List String
  | [], _, _, _ => ([], [])
  | n :: rest, shared, isShared, srcExists =>
    let r := clean_shared_database rest shared isShared srcExists
    if shared.contains n then r
    else if !(isShared n) && srcExists n then (n :: r.1, n :: r.2)
    else (r.1, n :: r.2)

/- ### `ShareManager.other_approved_share_object_exists`

The SQLAlchemy query is
`session.query(ShareObject).filter(and_(Environment.environmentUri == uri,
ShareObject.status == 'Approved')).all()`: it mentions `Environment`
without joining it to `ShareObject`, producing a cross join of the two
tables. -/

structure EnvRow where
  environmentUri : String
deriving DecidableEq, Repr

structure ShareRow where
  shareUri : String
  environmentUri : String
  status : String
deriving DecidableEq, Repr

structure DB where
  environments : List EnvRow
  shares : List ShareRow
deriving DecidableEq, Repr

/-- The rows returned by the query (one copy of each Approved share per
environment row matching `uri`). -/
def other_approved_share_rows (db : DB) (environment_uri : String) : List ShareRow :=
  (db.shares.flatMap (fun s => db.environments.map (fun e => (s, e)))).filterMap
    (fun se =>
      if se.2.environmentUri == environment_uri && se.1.status == "Approved"
      then some se.1 else none)

/-- Python truthiness of the returned list. -/
def other_approved_share_object_exists (db : DB) (environment_uri : String) : Bool :=
  !(other_approved_share_rows db environment_uri).isEmpty

/- ### Item status machinery (§4.2) and the per-item loops

`models.ShareObjectStatus` values used by the task. -/

inductive Status where
  | PendingApproval
  | Share_In_Progress
  | Share_Succeeded
  | Share_Failed
  | Revoke_In_Progress
  | Revoke_Share_Succeeded
  | Revoke_Share_Failed
deriving DecidableEq, Repr

/-- Observable events of a run: durable status writes
(`update_share_item_status`), alarms (`AlarmService`), and the
orchestrator phases.  Items are tagged by `(isFolder, index)`. -/
inductive Ev where
  | setStatus (isFolder : Bool) (item : Nat) (st : Status)
  | alarm (isFolder : Bool) (item : Nat)
  | loadContext
  | cleanDb
  | cleanFolders
  | deleteResourceLinks
  | revokeExternal
deriving DecidableEq, Repr

inductive Err where
  | objectNotFound
deriving DecidableEq, Repr

/-- Per-item outcome of the external steps: `itemFound` is
`get_share_item` succeeding (outside the `try`), `grantRaises` is the
grant/revoke sequence inside the `try` raising. -/
structure ItemSpec where
  itemFound : Bool
  grantRaises : Bool
deriving DecidableEq, Repr

/-- The events one loop iteration emits on its item. -/
def itemLog (tag : Bool) (stIn stOk stFail : Status) (i : Nat) (t : ItemSpec) : List Ev :=
  Ev.setStatus tag i stIn ::
    (if t.grantRaises then [Ev.setStatus tag i stFail, Ev.alarm tag i]
     else [Ev.setStatus tag i stOk])

/-- The common shape of `share_tables`, `share_folders` and
`revoke_shared_folders`: look the item up (an `ObjectNotFound` there
escapes the loop), transition to the in-progress status, run the
guarded sequence, and end the item in its success or failure terminal
status — failure also emitting an alarm. -/
def runShareLoop (tag : Bool) (stIn stOk stFail : Status) :
    Nat → List ItemSpec → Except Err (List Ev)
  | _, [] => .ok []
  | i, t :: rest =>
    if t.itemFound then
      match runShareLoop tag stIn stOk stFail (i + 1) rest with
      | .ok logRest => .ok (itemLog tag stIn stOk stFail i t ++ logRest)
      | .error e => .error e
    else .error Err.objectNotFound

/-- `ShareManager.share_tables`. -/
def share_tables : Nat → List ItemSpec → Except Err (List Ev) :=
  runShareLoop false .Share_In_Progress .Share_Succeeded .Share_Failed

/-- `ShareManager.share_folders`. -/
def share_folders : Nat → List ItemSpec → Except Err (List Ev) :=
  runShareLoop true .Share_In_Progress .Share_Succeeded .Share_Failed

/-- `ShareManager.revoke_shared_folders`. -/
def revoke_shared_folders : Nat → List ItemSpec → Except Err (List Ev) :=
  runShareLoop true .Revoke_In_Progress .Revoke_Share_Succeeded .Revoke_Share_Failed

/-- Per-table outcome for the reject path: additionally whether the
resource link still exists in the target shadow database
(`Glue.table_exists`). -/
structure RevTableSpec where
  itemFound : Bool
  tableExists : Bool
  revokeRaises : Bool
deriving DecidableEq, Repr

/-- `ShareManager.revoke_resource_links_access_on_target_account`: the
success transition to `Revoke_Share_Succeeded` sits *inside* the
`if Glue.table_exists(...)` branch, so a table whose resource link is
absent emits no terminal status at all. -/
def revoke_resource_links_access_on_target_account :
    Nat → List RevTableSpec → Except Err (List Ev)
  | _, [] => .ok []
  | i, t :: rest =>
    if t.itemFound then
      match revoke_resource_links_access_on_target_account (i + 1) rest with
      | .ok logRest =>
        .ok ((Ev.setStatus false i .Revoke_In_Progress ::
              (if t.tableExists then
                 (if t.revokeRaises then
                    [Ev.setStatus false i .Revoke_Share_Failed, Ev.alarm false i]
                  else [Ev.setStatus false i .Revoke_Share_Succeeded])
               else [])) ++ logRest)
      | .error e => .error e
    else .error Err.objectNotFound

/-- The `setStatus` writes a run performs on one item, in order. -/
def setEvents (tag : Bool) (k : Nat) (log : List Ev) : List Status :=
  log.filterMap (fun e =>
    match e with
    | .setStatus b j st => if b == tag && j == k then some st else none
    | _ => none)

/-- The durable status an item is left in after the run. -/
def finalStatus (tag : Bool) (k : Nat) (log : List Ev) : Option Status :=
  (setEvents tag k log).getLast?

/- ### §2 — the orchestrators -/

/-- `ShareManager.approve_share`: load share context (and principals),
share tables, clean the shared database, share folders, clean the
shared folders. -/
def approve_share (tables folders : List ItemSpec) : Except Err (List Ev) :=
  match share_tables 0 tables with
  | .error e => .error e
  | .ok tlog =>
    match share_folders 0 folders with
    | .error e => .error e
    | .ok flog =>
      .ok (Ev.loadContext :: tlog ++ Ev.cleanDb :: flog ++ [Ev.cleanFolders])

/-- `ShareManager.reject_share`: load share context, revoke resource
link access per table, delete the resource links, clean the shared
database, revoke the cross-account source grant only when
`other_approved_share_object_exists` returns an empty query result,
then revoke the shared folders. -/
def reject_share (db : DB) (targetEnvUri : String)
    (tables : List RevTableSpec) (folders : List ItemSpec) : Except Err (List Ev) :=
  match revoke_resource_links_access_on_target_account 0 tables with
  | .error e => .error e
  | .ok tlog =>
    match revoke_shared_folders 0 folders with
    | .error e => .error e
    | .ok flog =>
      .ok (Ev.loadContext :: tlog ++ [Ev.deleteResourceLinks, Ev.cleanDb] ++
           (if other_approved_share_object_exists db targetEnvUri then []
            else [Ev.revokeExternal]) ++ flog)

/- ## Supporting lemmas -/

theorem isPrefixOf_self_append (l t : List Char) : l.isPrefixOf (l ++ t) = true := by
  induction l with
  | nil => simp [List.isPrefixOf]
  | cons a l ih => simp [List.isPrefixOf, ih]

theorem isPrefixOf_append_extend (pat : List Char) :
    ∀ l t : List Char, pat.isPrefixOf l = true → pat.isPrefixOf (l ++ t) = true := by
  induction pat with
  | nil => intro l t _; simp [List.isPrefixOf]
  | cons p ps ih =>
    intro l t h
    cases l with
    | nil => simp [List.isPrefixOf] at h
    | cons a l' =>
      simp only [List.isPrefixOf, Bool.and_eq_true] at h
      simp only [List.cons_append, List.isPrefixOf, Bool.and_eq_true]
      exact ⟨h.1, ih l' t h.2⟩

theorem containsSeq_of_middle (t : List Char) :
    ∀ a b : List Char, containsSeq t (a ++ (t ++ b)) = true := by
  intro a
  induction a with
  | nil =>
    intro b
    match h : t ++ b with
    | [] =>
      have ht : t = [] := by
        cases t with
        | nil => rfl
        | cons x xs => simp at h
      simp [containsSeq, ht]
    | c :: rest =>
      rw [containsSeq, ← h, isPrefixOf_self_append, Bool.true_or]
  | cons c a ih =>
    intro b
    rw [List.cons_append, containsSeq, ih b, Bool.or_true]

theorem containsSeq_append_left (pat : List Char) :
    ∀ s t : List Char, containsSeq pat t = true → containsSeq pat (s ++ t) = true := by
  intro s
  induction s with
  | nil => intro t h; exact h
  | cons c s' ih =>
    intro t h
    rw [List.cons_append, containsSeq, ih t h, Bool.or_true]

theorem containsSeq_append_right (pat : List Char) :
    ∀ s t : List Char, containsSeq pat s = true → containsSeq pat (s ++ t) = true := by
  intro s
  induction s with
  | nil =>
    intro t h
    simp only [containsSeq] at h
    have ht : pat = [] := by
      cases pat with
      | nil => rfl
      | cons x xs => simp at h
    subst ht
    cases t with
    | nil => rfl
    | cons a t' => simp [containsSeq, List.isPrefixOf]
  | cons c s' ih =>
    intro t h
    rw [containsSeq] at h
    rw [List.cons_append, containsSeq]
    rcases Bool.or_eq_true_iff.mp h with h1 | h2
    · have hpre := isPrefixOf_append_extend pat (c :: s') t h1
      rw [List.cons_append] at hpre
      rw [hpre, Bool.true_or]
    · rw [ih t h2, Bool.or_true]

theorem strContains_of_middle (a t b : String) :
    strContains (a ++ (t ++ b)) t = true := by
  cases a with
  | mk da =>
    cases t with
    | mk dt =>
      cases b with
      | mk db =>
        show containsSeq dt (da ++ (dt ++ db)) = true
        exact containsSeq_of_middle dt da db

theorem strContains_append_left (s t pat : String) (h : strContains t pat = true) :
    strContains (s ++ t) pat = true := by
  cases s with
  | mk ds =>
    cases t with
    | mk dt =>
      cases pat with
      | mk dp =>
        exact containsSeq_append_left dp ds dt h

theorem strContains_append_right (s t pat : String) (h : strContains s pat = true) :
    strContains (s ++ t) pat = true := by
  cases s with
  | mk ds =>
    cases t with
    | mk dt =>
      cases pat with
      | mk dp =>
        exact containsSeq_append_right dp ds dt h

theorem joinSep_concat (sep : String) (y : String) :
    ∀ xs : List String, ∃ a : String, joinSep sep (xs ++ [y]) = a ++ y := by
  intro xs
  induction xs with
  | nil => exact ⟨"", by simp [joinSep]⟩
  | cons x rest ih =>
    obtain ⟨a, ha⟩ := ih
    cases rest with
    | nil => exact ⟨x ++ sep ++ "", by simp [joinSep]⟩
    | cons r rs =>
      refine ⟨x ++ sep ++ a, ?_⟩
      show x ++ sep ++ joinSep sep ((r :: rs) ++ [y]) = x ++ sep ++ a ++ y
      rw [ha]
      simp [String.append_assoc]

theorem clean_shared_database_spec (shadow shared : List String)
    (isShared srcExists : String → Bool) :
    clean_shared_database shadow shared isShared srcExists =
      (shadow.filter (fun n => !(shared.contains n) && (!(isShared n) && srcExists n)),
       shadow.filter (fun n => !(shared.contains n))) := by
  induction shadow with
  | nil => rfl
  | cons n rest ih =>
    simp only [clean_shared_database, ih, List.filter_cons]
    cases hc : shared.contains n with
    | true => simp
    | false =>
      cases hi : isShared n with
      | true => simp [hi]
      | false =>
        cases he : srcExists n with
        | true => simp [hi, he]
        | false => simp [hi, he]

theorem chunkAux_congr {α : Type} :
    ∀ (n m : Nat) (l : List α), l.length ≤ n → l.length ≤ m → chunkAux n l = chunkAux m l := by
  intro n
  induction n with
  | zero =>
    intro m l hn _
    have : l = [] := List.eq_nil_of_length_eq_zero (Nat.le_zero.mp hn)
    subst this
    cases m <;> rfl
  | succ n ih =>
    intro m l hn hm
    cases l with
    | nil => cases m <;> rfl
    | cons a l' =>
      cases m with
      | zero => simp at hm
      | succ m' =>
        show (a :: l').take 20 :: chunkAux n ((a :: l').drop 20) =
             (a :: l').take 20 :: chunkAux m' ((a :: l').drop 20)
        congr 1
        apply ih
        · simp only [List.length_drop, List.length_cons]
          simp only [List.length_cons] at hn
          omega
        · simp only [List.length_drop, List.length_cons]
          simp only [List.length_cons] at hm
          omega

theorem chunksOf20_cons {α : Type} (a : α) (l : List α) :
    chunksOf20 (a :: l) = (a :: l).take 20 :: chunksOf20 ((a :: l).drop 20) := by
  show (a :: l).take 20 :: chunkAux l.length ((a :: l).drop 20) = _
  congr 1
  apply chunkAux_congr
  · simp only [List.length_drop, List.length_cons]
    omega
  · exact Nat.le_refl _

theorem chunksOf20_ne_nil {α : Type} (l : List α) (h : l ≠ []) :
    chunksOf20 l = l.take 20 :: chunksOf20 (l.drop 20) := by
  cases l with
  | nil => exact absurd rfl h
  | cons a l' => exact chunksOf20_cons a l'

theorem chunksOf20_join {α : Type} :
    ∀ (n : Nat) (l : List α), l.length ≤ n → (chunksOf20 l).flatten = l := by
  intro n
  induction n with
  | zero =>
    intro l h
    have : l = [] := List.eq_nil_of_length_eq_zero (Nat.le_zero.mp h)
    subst this
    rfl
  | succ n ih =>
    intro l h
    cases l with
    | nil => rfl
    | cons a l' =>
      rw [chunksOf20_cons, List.flatten_cons]
      rw [ih ((a :: l').drop 20)
          (by simp only [List.length_drop, List.length_cons]
              simp only [List.length_cons] at h
              omega)]
      exact List.take_append_drop 20 (a :: l')

theorem chunksOf20_bounded {α : Type} :
    ∀ (n : Nat) (l : List α), l.length ≤ n → ∀ c ∈ chunksOf20 l, c.length ≤ 20 := by
  intro n
  induction n with
  | zero =>
    intro l h c hc
    have : l = [] := List.eq_nil_of_length_eq_zero (Nat.le_zero.mp h)
    subst this
    simp [chunksOf20, chunkAux] at hc
  | succ n ih =>
    intro l h c hc
    cases l with
    | nil => simp [chunksOf20, chunkAux] at hc
    | cons a l' =>
      rw [chunksOf20_cons] at hc
      rcases List.mem_cons.mp hc with h1 | h2
      · subst h1
        simp only [List.length_take]
        exact Nat.min_le_left _ _
      · exact ih ((a :: l').drop 20)
          (by simp only [List.length_drop, List.length_cons]
              simp only [List.length_cons] at h
              omega) c h2

theorem chunksOf20_of_45 {α : Type} (l : List α) (h : l.length = 45) :
    (chunksOf20 l).map List.length = [20, 20, 5] := by
  have h0 : l ≠ [] := by
    intro e; subst e; simp at h
  have hd1 : (l.drop 20).length = 25 := by simp [List.length_drop, h]
  have hd2 : ((l.drop 20).drop 20).length = 5 := by simp [List.length_drop, h]
  have hd3 : (((l.drop 20).drop 20).drop 20).length = 0 := by simp [List.length_drop, h]
  have h1 : l.drop 20 ≠ [] := by
    intro e; rw [e] at hd1; simp at hd1
  have h2 : (l.drop 20).drop 20 ≠ [] := by
    intro e; rw [e] at hd2; simp at hd2
  have h3 : ((l.drop 20).drop 20).drop 20 = [] := List.eq_nil_of_length_eq_zero hd3
  rw [chunksOf20_ne_nil l h0, chunksOf20_ne_nil _ h1, chunksOf20_ne_nil _ h2, h3]
  show (l.take 20).length :: ((l.drop 20).take 20).length ::
       (((l.drop 20).drop 20).take 20).length :: (chunksOf20 ([] : List α)).map List.length
       = [20, 20, 5]
  rw [show chunksOf20 ([] : List α) = [] from rfl]
  simp [List.length_take, h, hd1, hd2]

theorem runChunks_all_ok {α : Type} (api : List α → Except ClientErr (List LFFailure)) :
    ∀ (cs : List (List α)) (acc : List LFFailure),
    (∀ c ∈ cs, ∃ fs, api c = .ok fs) →
    ∃ gs, runChunks api cs acc = (acc ++ gs, none) := by
  intro cs
  induction cs with
  | nil => exact fun acc _ => ⟨[], by simp [runChunks]⟩
  | cons c cs ih =>
    intro acc h
    obtain ⟨fs, hfs⟩ := h c (by simp)
    obtain ⟨gs, hgs⟩ := ih (acc ++ fs) (fun c' hc' => h c' (by simp [hc']))
    refine ⟨fs ++ gs, ?_⟩
    simp only [runChunks, hfs, hgs, List.append_assoc]

/- Lemmas on distinguished Sids. -/

theorem string_append_right_ne (s a b : String) (h : a ≠ b) : s ++ a ≠ s ++ b := by
  intro hh
  apply h
  apply String.ext
  have := congrArg String.data hh
  rw [String.data_append, String.data_append] at this
  exact List.append_cancel_left this

theorem tid0_ne_tid1 (tid : String) : tid ++ "0" ≠ tid ++ "1" :=
  string_append_right_ne tid "0" "1" (by decide)

theorem tid_digit_ne_admin (tid d : String) (hd : d.data = ['0'] ∨ d.data = ['1']) :
    tid ++ d ≠ "AllowAllToAdmin" := by
  intro h
  have hdata := congrArg String.data h
  rw [String.data_append] at hdata
  have hlast := congrArg List.getLast? hdata
  rcases hd with h0 | h0 <;>
    (rw [h0, List.getLast?_concat] at hlast; exact absurd hlast (by decide))

/-- C1 part: `manage_bucket_policy` applied twice equals it applied
once — the second run finds the `AllowAllToAdmin` Sid it appended and
returns without touching the document. -/
theorem manage_bucket_policy_idem (excIds : List String) (src bucket : String)
    (doc : Policy) :
    manage_bucket_policy excIds src bucket (manage_bucket_policy excIds src bucket doc) =
      manage_bucket_policy excIds src bucket doc := by
  by_cases h : doc.statements.any (fun st =>
      st.sid == some "AllowAllToAdmin" || st.sid == some "DelegateAccessToAccessPoint") = true
  · simp [manage_bucket_policy, h]
  · have hinner : manage_bucket_policy excIds src bucket doc =
        ⟨doc.statements ++
         [allow_owner_access excIds bucket, delegated_to_accesspoint src bucket]⟩ := by
      rw [manage_bucket_policy, if_neg h]
    rw [hinner, manage_bucket_policy, if_pos]
    simp [List.any_append, allow_owner_access]

/-- The serialised key policy after appending the decrypt statement
contains the substring `tid ++ ":*"` the source's guard looks for. -/
theorem serPolicy_key_statement_contains (tid : String) (stmts : List Stmt) :
    strContains (serPolicy ⟨stmts ++ [key_policy_statement tid]⟩) (tid ++ ":*") = true := by
  obtain ⟨a, ha⟩ := joinSep_concat ", " (serStmt (key_policy_statement tid))
    (stmts.map serStmt)
  have hser : serPolicy ⟨stmts ++ [key_policy_statement tid]⟩ =
      "\x7b\"Statement\": [" ++ (a ++ serStmt (key_policy_statement tid)) ++ "]\x7d" := by
    rw [serPolicy]
    show "\x7b\"Statement\": [" ++
        joinSep ", " ((stmts ++ [key_policy_statement tid]).map serStmt) ++ "]\x7d" = _
    rw [List.map_append]
    show "\x7b\"Statement\": [" ++
        joinSep ", " (stmts.map serStmt ++ [serStmt (key_policy_statement tid)]) ++ "]\x7d" = _
    rw [ha]
  rw [hser]
  apply strContains_append_right
  apply strContains_append_left
  apply strContains_append_left
  -- the statement's own serialisation: peel off everything before the
  -- condition value
  rw [serStmt]
  apply strContains_append_right
  apply strContains_append_left
  show strContains (serSVal (key_policy_statement tid).condVal) (tid ++ ":*") = true
  show strContains ("\"" ++ (tid ++ ":*") ++ "\"") (tid ++ ":*") = true
  rw [String.append_assoc]
  exact strContains_of_middle "\"" (tid ++ ":*") "\""

/-- C1 part: the key-policy step applied twice equals it applied once —
after the append the serialised policy contains `tid:*`, so the second
run's substring guard fires and nothing is written. -/
theorem update_dataset_bucket_key_policy_idem (tid : String) (st : Option Policy) :
    update_dataset_bucket_key_policy tid (update_dataset_bucket_key_policy tid st) =
      update_dataset_bucket_key_policy tid st := by
  cases st with
  | none => rfl
  | some p =>
    by_cases h : strContains (serPolicy p) (tid ++ ":*") = true
    · simp [update_dataset_bucket_key_policy, h]
    · rw [update_dataset_bucket_key_policy, if_neg h, update_dataset_bucket_key_policy,
          if_pos (serPolicy_key_statement_contains tid p.statements)]

/- Dict lemmas for the access-point step. -/

theorem dictGet_cons_of_beq_false (kv : String × Stmt) (m : StmtDict) (k : String)
    (h : (kv.1 == k) = false) : dictGet (kv :: m) k = dictGet m k := by
  rw [dictGet, List.find?_cons_of_neg _ (by simp [h]), dictGet]

theorem dictGet_cons_of_beq_true (kv : String × Stmt) (m : StmtDict) (k : String)
    (h : (kv.1 == k) = true) : dictGet (kv :: m) k = some kv.2 := by
  rw [dictGet, List.find?_cons_of_pos, Option.map_some']
  exact h

theorem dictGet_mem (m : StmtDict) (k : String) (v : Stmt)
    (h : dictGet m k = some v) : (k, v) ∈ m := by
  rw [dictGet] at h
  cases hf : m.find? (fun kv => kv.1 == k) with
  | none => rw [hf] at h; cases h
  | some kv =>
    rw [hf] at h
    have hk : kv.1 = k := by simpa using List.find?_some hf
    have hv : kv.2 = v := by simpa using h
    have := List.mem_of_find?_eq_some hf
    rwa [show kv = (k, v) from Prod.ext hk hv] at this

theorem dictGet_hasKey (m : StmtDict) (k : String) (v : Stmt)
    (h : dictGet m k = some v) : dictHasKey m k = true := by
  apply List.any_eq_true.mpr
  exact ⟨(k, v), dictGet_mem m k v h, by simp⟩

theorem dictGet_sid (m : StmtDict) (k : String) (v : Stmt) (hw : WellKeyed m)
    (h : dictGet m k = some v) : v.sid = some k :=
  hw (k, v) (dictGet_mem m k v h)

theorem dictGet_none_iff (m : StmtDict) (k : String) :
    dictGet m k = none ↔ k ∉ dictKeys m := by
  rw [dictGet, Option.map_eq_none', List.find?_eq_none]
  constructor
  · intro h hk
    obtain ⟨kv, hkv, hke⟩ := List.mem_map.mp hk
    exact (h kv hkv) (by simpa using hke)
  · intro h kv hkv hke
    apply h
    exact List.mem_map.mpr ⟨kv, hkv, by simpa using hke⟩

theorem dictGet_append_of_none (m1 m2 : StmtDict) (k : String)
    (h : dictGet m1 k = none) : dictGet (m1 ++ m2) k = dictGet m2 k := by
  have hf : m1.find? (fun kv => kv.1 == k) = none := by
    rw [dictGet] at h
    exact Option.map_eq_none'.mp h
  rw [dictGet, List.find?_append, hf, Option.none_or, dictGet]

theorem dictGet_map_keyUpdate (k : String) (v : Stmt) (k' : String) (hne : k' ≠ k) :
    ∀ m : StmtDict,
    dictGet (m.map (fun kv => if kv.1 == k then (k, v) else kv)) k' = dictGet m k' := by
  intro m
  induction m with
  | nil => rfl
  | cons kv0 m' ih =>
    rw [List.map_cons]
    by_cases hk : (kv0.1 == k) = true
    · rw [if_pos hk]
      have hk0 : kv0.1 = k := by simpa using hk
      have h1 : ((k, v).1 == k') = false := by
        simp
        exact fun hh => hne hh.symm
      have h2 : (kv0.1 == k') = false := by
        simp [hk0]
        exact fun hh => hne hh.symm
      rw [dictGet_cons_of_beq_false _ _ _ h1, ih, dictGet_cons_of_beq_false _ _ _ h2]
    · rw [if_neg hk]
      by_cases hp : (kv0.1 == k') = true
      · rw [dictGet_cons_of_beq_true _ _ _ hp, dictGet_cons_of_beq_true _ _ _ hp]
      · have hp' : (kv0.1 == k') = false := by simpa using hp
        rw [dictGet_cons_of_beq_false _ _ _ hp', ih, dictGet_cons_of_beq_false _ _ _ hp']

theorem dictGet_insert_of_ne (m : StmtDict) (k : String) (v : Stmt) (k' : String)
    (hne : k' ≠ k) : dictGet (dictInsert m k v) k' = dictGet m k' := by
  rw [dictInsert]
  by_cases h : dictHasKey m k = true
  · rw [if_pos h]
    exact dictGet_map_keyUpdate k v k' hne m
  · rw [if_neg h]
    have hpred : ¬ (((k, v).1 == k') = true) := by
      simp
      exact fun hh => hne hh.symm
    have hone : ([((k, v))] : StmtDict).find? (fun kv => kv.1 == k') = none := by
      have hb : ((k, v).1 == k') = false := by simpa using hpred
      simp [List.find?, hb]
    cases hg : dictGet m k' with
    | some w =>
      have hfind : m.find? (fun kv => kv.1 == k') = some (k', w) := by
        rw [dictGet] at hg
        cases hfm : m.find? (fun kv => kv.1 == k') with
        | none => rw [hfm] at hg; cases hg
        | some kv =>
          rw [hfm] at hg
          have hk1 : kv.1 = k' := by simpa using List.find?_some hfm
          have hk2 : kv.2 = w := by simpa using hg
          exact congrArg some (Prod.ext hk1 hk2)
      rw [dictGet, List.find?_append, hfind]
      rfl
    | none =>
      have hfind : m.find? (fun kv => kv.1 == k') = none := Option.map_eq_none'.mp hg
      rw [dictGet, List.find?_append, hfind, Option.none_or, hone]
      rfl

theorem dictGet_insert_self (m : StmtDict) (k : String) (v : Stmt)
    (h : dictHasKey m k = true) : dictGet (dictInsert m k v) k = some v := by
  induction m with
  | nil => simp [dictHasKey] at h
  | cons kv0 m' ih =>
    rw [dictInsert, if_pos h, List.map_cons]
    by_cases hk : (kv0.1 == k) = true
    · rw [if_pos hk]
      exact dictGet_cons_of_beq_true (k, v) _ k (by simp)
    · rw [if_neg hk]
      have hbool : (kv0.1 == k) = false := by simpa using hk
      have h' : dictHasKey m' k = true := by
        simp only [dictHasKey, List.any_cons, hbool, Bool.false_or] at h
        exact h
      have ihh := ih h'
      rw [dictInsert, if_pos h'] at ihh
      rw [dictGet_cons_of_beq_false _ _ _ hbool, ihh]

theorem wellKeyed_insert (m : StmtDict) (k : String) (v : Stmt)
    (hm : WellKeyed m) (hv : v.sid = some k) : WellKeyed (dictInsert m k v) := by
  intro kv hkv
  rw [dictInsert] at hkv
  by_cases h : dictHasKey m k = true
  · rw [if_pos h] at hkv
    obtain ⟨kv0, hkv0, heq⟩ := List.mem_map.mp hkv
    by_cases hk : (kv0.1 == k) = true
    · rw [if_pos hk] at heq
      rw [← heq]
      exact hv
    · rw [if_neg hk] at heq
      rw [← heq]
      exact hm kv0 hkv0
  · rw [if_neg h] at hkv
    rcases List.mem_append.mp hkv with h1 | h2
    · exact hm kv h1
    · rw [List.mem_singleton.mp h2]
      exact hv

theorem dictKeys_insert_of_hasKey (m : StmtDict) (k : String) (v : Stmt)
    (h : dictHasKey m k = true) : dictKeys (dictInsert m k v) = dictKeys m := by
  rw [dictInsert, if_pos h, dictKeys, dictKeys, List.map_map]
  apply List.map_congr_left
  intro kv _
  by_cases hk : kv.1 = k
  · simp [hk]
  · simp [hk]

theorem dictKeys_insert_of_not_hasKey (m : StmtDict) (k : String) (v : Stmt)
    (h : dictHasKey m k = false) : dictKeys (dictInsert m k v) = dictKeys m ++ [k] := by
  rw [dictInsert, if_neg (by simp [h]), dictKeys, dictKeys, List.map_append]
  rfl

theorem hasKey_iff_mem_keys (m : StmtDict) (k : String) :
    dictHasKey m k = true ↔ k ∈ dictKeys m := by
  rw [dictHasKey, List.any_eq_true]
  constructor
  · rintro ⟨kv, hkv, hke⟩
    exact List.mem_map.mpr ⟨kv, hkv, by simpa using hke⟩
  · intro hk
    obtain ⟨kv, hkv, hke⟩ := List.mem_map.mp hk
    exact ⟨kv, hkv, by simpa using hke⟩

theorem keysNodup_insert (m : StmtDict) (k : String) (v : Stmt)
    (h : (dictKeys m).Nodup) : (dictKeys (dictInsert m k v)).Nodup := by
  by_cases hk : dictHasKey m k = true
  · rw [dictKeys_insert_of_hasKey m k v hk]
    exact h
  · have hk' : dictHasKey m k = false := by simpa using hk
    rw [dictKeys_insert_of_not_hasKey m k v hk']
    rw [List.nodup_append]
    refine ⟨h, List.nodup_singleton k, ?_⟩
    intro a ha hb
    rw [List.mem_singleton.mp hb] at ha
    exact hk ((hasKey_iff_mem_keys m k).mpr ha)

theorem buildDict_wellKeyed_nodup :
    ∀ (l : List Stmt) (m m' : StmtDict), buildDict m l = some m' →
    WellKeyed m → (dictKeys m).Nodup → WellKeyed m' ∧ (dictKeys m').Nodup := by
  intro l
  induction l with
  | nil =>
    intro m m' h hw hn
    cases h
    exact ⟨hw, hn⟩
  | cons s rest ih =>
    intro m m' h hw hn
    rw [buildDict] at h
    cases hs : s.sid with
    | none => rw [hs] at h; cases h
    | some k =>
      rw [hs] at h
      exact ih (dictInsert m k s) m' h (wellKeyed_insert m k s hw hs)
        (keysNodup_insert m k s hn)

theorem buildDict_sid_isSome :
    ∀ (l : List Stmt) (m m' : StmtDict), buildDict m l = some m' →
    ∀ s ∈ l, ∃ k, s.sid = some k := by
  intro l
  induction l with
  | nil => intro m m' _ s hs; simp at hs
  | cons s0 rest ih =>
    intro m m' h s hs
    rw [buildDict] at h
    cases hs0 : s0.sid with
    | none => rw [hs0] at h; cases h
    | some k =>
      rw [hs0] at h
      rcases List.mem_cons.mp hs with h1 | h2
      · exact ⟨k, h1 ▸ hs0⟩
      · exact ih (dictInsert m k s0) m' h s h2

theorem hasKey_append_single (m : StmtDict) (k k' : String) (v : Stmt) :
    dictHasKey (m ++ [(k, v)]) k' = (dictHasKey m k' || (k == k')) := by
  rw [dictHasKey, List.any_append]
  simp [dictHasKey]

theorem buildDict_keys_mem :
    ∀ (l : List Stmt) (m m' : StmtDict), buildDict m l = some m' →
    ∀ k, k ∈ dictKeys m' ↔ (k ∈ dictKeys m ∨ some k ∈ l.map Stmt.sid) := by
  intro l
  induction l with
  | nil =>
    intro m m' h k
    cases h
    simp
  | cons s rest ih =>
    intro m m' h k
    rw [buildDict] at h
    cases hs : s.sid with
    | none => rw [hs] at h; cases h
    | some k0 =>
      rw [hs] at h
      rw [ih (dictInsert m k0 s) m' h k]
      have hins : k ∈ dictKeys (dictInsert m k0 s) ↔ (k ∈ dictKeys m ∨ k = k0) := by
        by_cases hhk : dictHasKey m k0 = true
        · rw [dictKeys_insert_of_hasKey m k0 s hhk]
          constructor
          · exact Or.inl
          · rintro (h1 | h1)
            · exact h1
            · rw [h1]
              exact (hasKey_iff_mem_keys m k0).mp hhk
        · rw [dictKeys_insert_of_not_hasKey m k0 s (by simpa using hhk)]
          rw [List.mem_append, List.mem_singleton]
      rw [hins]
      simp only [List.map_cons, List.mem_cons, hs, Option.some.injEq]
      tauto

theorem buildDict_pairs_eq :
    ∀ (l : List Stmt) (acc : StmtDict),
    (∀ s ∈ l, ∃ k, s.sid = some k) →
    (l.map Stmt.sid).Nodup →
    (∀ s ∈ l, ∀ k, s.sid = some k → dictHasKey acc k = false) →
    buildDict acc l = some (acc ++ pairs l) := by
  intro l
  induction l with
  | nil =>
    intro acc _ _ _
    simp [buildDict, pairs]
  | cons s rest ih =>
    intro acc hsome hnodup hfresh
    obtain ⟨k, hk⟩ := hsome s (by simp)
    simp only [buildDict, hk]
    have hfk : dictHasKey acc k = false := hfresh s (by simp) k hk
    rw [dictInsert, if_neg (by simp [hfk])]
    have hrest := ih (acc ++ [(k, s)])
      (fun s' hs' => hsome s' (by simp [hs']))
      (by simp only [List.map_cons] at hnodup; exact hnodup.of_cons)
      ?_
    · rw [hrest]
      have : pairs (s :: rest) = (k, s) :: pairs rest := by
        simp [pairs, hk]
      rw [this, List.append_assoc, List.singleton_append]
    · intro s' hs' k' hk'
      rw [hasKey_append_single]
      have h1 : dictHasKey acc k' = false := hfresh s' (by simp [hs']) k' hk'
      have h2 : (k == k') = false := by
        simp only [List.map_cons, hk] at hnodup
        have hnotin : some k ∉ rest.map Stmt.sid := (List.nodup_cons.mp hnodup).1
        simp
        intro he
        apply hnotin
        rw [he]
        exact List.mem_map.mpr ⟨s', hs', hk'⟩
      rw [h1, h2]
      rfl

theorem pairs_wellKeyed (l : List Stmt) (h : ∀ s ∈ l, ∃ k, s.sid = some k) :
    WellKeyed (pairs l) := by
  intro kv hkv
  obtain ⟨s, hs, heq⟩ := List.mem_map.mp hkv
  obtain ⟨k, hk⟩ := h s hs
  rw [← heq]
  simp [hk]

theorem dictValues_pairs (l : List Stmt) : dictValues (pairs l) = l := by
  rw [dictValues, pairs, List.map_map]
  conv_rhs => rw [← List.map_id l]
  apply List.map_congr_left
  intro s _
  rfl

theorem pairs_dictValues (m : StmtDict) (hm : WellKeyed m) :
    pairs (dictValues m) = m := by
  rw [pairs, dictValues, List.map_map]
  conv_rhs => rw [← List.map_id m]
  apply List.map_congr_left
  intro kv hkv
  have := hm kv hkv
  simp only [Function.comp_apply, this, Option.getD_some, id]

theorem dictValues_sid_isSome (m : StmtDict) (hm : WellKeyed m) :
    ∀ s ∈ dictValues m, ∃ k, s.sid = some k := by
  intro s hs
  obtain ⟨kv, hkv, heq⟩ := List.mem_map.mp hs
  exact ⟨kv.1, heq ▸ hm kv hkv⟩

theorem dictValues_sids (m : StmtDict) (hm : WellKeyed m) :
    (dictValues m).map Stmt.sid = (dictKeys m).map some := by
  rw [dictValues, dictKeys, List.map_map, List.map_map]
  apply List.map_congr_left
  intro kv hkv
  simpa using hm kv hkv

theorem pairs_append (l1 l2 : List Stmt) : pairs (l1 ++ l2) = pairs l1 ++ pairs l2 :=
  List.map_append _ l1 l2

theorem dictGet_pairs_none (l : List Stmt) (k : String)
    (hsome : ∀ s ∈ l, ∃ k', s.sid = some k')
    (h : some k ∉ l.map Stmt.sid) : dictGet (pairs l) k = none := by
  rw [dictGet_none_iff]
  intro hk
  obtain ⟨kv, hkv, hke⟩ := List.mem_map.mp hk
  obtain ⟨s, hs, heq⟩ := List.mem_map.mp hkv
  obtain ⟨k', hk'⟩ := hsome s hs
  apply h
  have : kv.1 = k' := by rw [← heq]; simp [hk']
  rw [← hke, this, ← hk']
  exact List.mem_map.mpr ⟨s, hs, rfl⟩

/-- A policy whose dict form already carries the saturated `<tid>0` /
`<tid>1` statements is a fixed point of the access-point step. -/
theorem manage_ap_stable (tid : String) (excIds : List String) (arn pfx : String)
    (q : List Stmt) (ex : Bool)
    (hsome : ∀ s ∈ q, ∃ k, s.sid = some k)
    (hnodup : (q.map Stmt.sid).Nodup)
    (s0 : Stmt) (hs0 : dictGet (pairs q) (tid ++ "0") = some s0)
    (hop : s0.condOp = "StringLike") (hkey : s0.condKey = "s3:prefix")
    (hpl : (pfx ++ "/*") ∈ svalList s0.condVal)
    (s1 : Stmt) (hs1 : dictGet (pairs q) (tid ++ "1") = some s1)
    (hrl : (arn ++ "/object/" ++ pfx ++ "/*") ∈ svalList s1.resource) :
    manage_access_point_and_policy tid excIds arn pfx ⟨ex, some ⟨q⟩⟩ =
      some ⟨true, some ⟨q⟩⟩ := by
  have hbd : buildDict [] q = some (pairs q) := by
    have := buildDict_pairs_eq q [] hsome hnodup (fun s _ k _ => rfl)
    simpa using this
  have hcond : ((s0.condOp == "StringLike") && (s0.condKey == "s3:prefix")) = true := by
    simp [hop, hkey]
  have hc1 : (svalList s0.condVal).contains (pfx ++ "/*") = true := by
    simpa using hpl
  have hc2 : (svalList s1.resource).contains (arn ++ "/object/" ++ pfx ++ "/*") = true := by
    simpa using hrl
  simp only [manage_access_point_and_policy, hbd, hs0, hcond, hc1, hs1, hc2, if_true,
    dictValues_pairs]

theorem beq_append01_false (tid : String) : ((tid ++ "0") == (tid ++ "1")) = false := by
  simpa using tid0_ne_tid1 tid

/-- C1 part: the access-point step is idempotent on states whose
pre-existing policy has pairwise-distinct Sids carrying `<tid>1` only
together with `<tid>0`. -/
theorem manage_access_point_and_policy_idem (tid : String) (excIds : List String)
    (arn pfx : String) (st st' : APState)
    (hgood : goodSids tid st)
    (h : manage_access_point_and_policy tid excIds arn pfx st = some st') :
    manage_access_point_and_policy tid excIds arn pfx st' = some st' := by
  obtain ⟨ex, pol⟩ := st
  cases pol with
  | none =>
    rw [manage_access_point_and_policy] at h
    cases h
    refine manage_ap_stable tid excIds arn pfx _ true ?_ ?_
      (template_prefix_statement tid arn pfx) ?_ rfl rfl ?_
      (template_object_statement tid arn pfx) ?_ ?_
    · intro s hs
      rcases List.mem_cons.mp hs with h1 | hs
      · exact ⟨tid ++ "0", by rw [h1]; rfl⟩
      rcases List.mem_cons.mp hs with h1 | hs
      · exact ⟨tid ++ "1", by rw [h1]; rfl⟩
      rcases List.mem_cons.mp hs with h1 | hs
      · exact ⟨"AllowAllToAdmin", by rw [h1]; rfl⟩
      · simp at hs
    · show ([some (tid ++ "0"), some (tid ++ "1"), some "AllowAllToAdmin"]).Nodup
      simp only [List.nodup_cons, List.mem_cons, List.mem_singleton, List.not_mem_nil]
      refine ⟨?_, ?_, by simp⟩
      · intro hc
        rcases hc with h1 | h1 | h1
        · exact tid0_ne_tid1 tid (by injection h1)
        · exact tid_digit_ne_admin tid "0" (Or.inl rfl) (by injection h1)
        · simp at h1
      · intro hc
        rcases hc with h1 | h1
        · exact tid_digit_ne_admin tid "1" (Or.inr rfl) (by injection h1)
        · simp at h1
    · show dictGet ((tid ++ "0", template_prefix_statement tid arn pfx) ::
        (tid ++ "1", template_object_statement tid arn pfx) ::
        [("AllowAllToAdmin", access_point_admin_statement excIds arn)]) (tid ++ "0") =
        some (template_prefix_statement tid arn pfx)
      exact dictGet_cons_of_beq_true _ _ _ (by simp)
    · show (pfx ++ "/*") ∈ [pfx ++ "/*"]
      simp
    · show dictGet ((tid ++ "0", template_prefix_statement tid arn pfx) ::
        (tid ++ "1", template_object_statement tid arn pfx) ::
        [("AllowAllToAdmin", access_point_admin_statement excIds arn)]) (tid ++ "1") =
        some (template_object_statement tid arn pfx)
      rw [dictGet_cons_of_beq_false _ _ _ (beq_append01_false tid)]
      exact dictGet_cons_of_beq_true _ _ _ (by simp)
    · show (arn ++ "/object/" ++ pfx ++ "/*") ∈ [arn ++ "/object/" ++ pfx ++ "/*"]
      simp
  | some p =>
    rw [manage_access_point_and_policy] at h
    dsimp only at h
    cases hbd : buildDict [] p.statements with
    | none => rw [hbd] at h; cases h
    | some d =>
      rw [hbd] at h
      dsimp only at h
      have hwn : WellKeyed d ∧ (dictKeys d).Nodup :=
        buildDict_wellKeyed_nodup p.statements [] d hbd (fun kv hkv => by simp at hkv)
          (by simp [dictKeys])
      have hsome_p : ∀ s ∈ p.statements, ∃ k, s.sid = some k :=
        buildDict_sid_isSome p.statements [] d hbd
      cases hg0 : dictGet d (tid ++ "0") with
      | none =>
        rw [hg0] at h
        cases h
        obtain ⟨hnodup_p, himp⟩ := hgood
        have h0notin : some (tid ++ "0") ∉ p.statements.map Stmt.sid := by
          intro hin
          have hk := (buildDict_keys_mem p.statements [] d hbd (tid ++ "0")).mpr
            (Or.inr hin)
          exact (dictGet_none_iff d (tid ++ "0")).mp hg0 hk
        have h1notin : some (tid ++ "1") ∉ p.statements.map Stmt.sid :=
          fun hin => h0notin (himp hin)
        have hq_sids : (p.statements ++ generate_access_point_policy_template tid arn pfx).map
            Stmt.sid = p.statements.map Stmt.sid ++ [some (tid ++ "0"), some (tid ++ "1")] := by
          rw [List.map_append]
          rfl
        have hget_pre0 : dictGet (pairs p.statements) (tid ++ "0") = none :=
          dictGet_pairs_none p.statements (tid ++ "0") hsome_p h0notin
        have hget_pre1 : dictGet (pairs p.statements) (tid ++ "1") = none :=
          dictGet_pairs_none p.statements (tid ++ "1") hsome_p h1notin
        refine manage_ap_stable tid excIds arn pfx _ true ?_ ?_
          (template_prefix_statement tid arn pfx) ?_ rfl rfl ?_
          (template_object_statement tid arn pfx) ?_ ?_
        · intro s hs
          rcases List.mem_append.mp hs with h1 | h1
          · exact hsome_p s h1
          rcases List.mem_cons.mp h1 with h2 | h1
          · exact ⟨tid ++ "0", by rw [h2]; rfl⟩
          rcases List.mem_cons.mp h1 with h2 | h1
          · exact ⟨tid ++ "1", by rw [h2]; rfl⟩
          · simp at h1
        · rw [hq_sids, List.nodup_append]
          refine ⟨hnodup_p, ?_, ?_⟩
          · have hne : (some (tid ++ "0") : Option String) ≠ some (tid ++ "1") := by
              intro hh
              exact tid0_ne_tid1 tid (by injection hh)
            simp [List.nodup_cons, hne]
          · intro a ha hb
            rcases List.mem_cons.mp hb with h1 | hb
            · rw [h1] at ha; exact h0notin ha
            rcases List.mem_cons.mp hb with h1 | hb
            · rw [h1] at ha; exact h1notin ha
            · simp at hb
        · rw [pairs_append, dictGet_append_of_none _ _ _ hget_pre0]
          show dictGet ((tid ++ "0", template_prefix_statement tid arn pfx) ::
            [(tid ++ "1", template_object_statement tid arn pfx)]) (tid ++ "0") = _
          exact dictGet_cons_of_beq_true _ _ _ (by simp)
        · show (pfx ++ "/*") ∈ [pfx ++ "/*"]
          simp
        · rw [pairs_append, dictGet_append_of_none _ _ _ hget_pre1]
          show dictGet ((tid ++ "0", template_prefix_statement tid arn pfx) ::
            [(tid ++ "1", template_object_statement tid arn pfx)]) (tid ++ "1") = _
          rw [dictGet_cons_of_beq_false _ _ _ (beq_append01_false tid)]
          exact dictGet_cons_of_beq_true _ _ _ (by simp)
        · show (arn ++ "/object/" ++ pfx ++ "/*") ∈ [arn ++ "/object/" ++ pfx ++ "/*"]
          simp
      | some s0 =>
        rw [hg0] at h
        dsimp only at h
        have hs0sid : s0.sid = some (tid ++ "0") := dictGet_sid d _ s0 hwn.1 hg0
        have hhk0 : dictHasKey d (tid ++ "0") = true := dictGet_hasKey d _ s0 hg0
        by_cases hcond : ((s0.condOp == "StringLike") && (s0.condKey == "s3:prefix")) = true
        · rw [if_pos hcond] at h
          have hop : s0.condOp = "StringLike" := by
            have := (Bool.and_eq_true _ _).mp hcond
            simpa using this.1
          have hkey : s0.condKey = "s3:prefix" := by
            have := (Bool.and_eq_true _ _).mp hcond
            simpa using this.2
          -- name the two candidate dicts
          set tgtP := pfx ++ "/*" with htgtP
          set tgtR := arn ++ "/object/" ++ pfx ++ "/*" with htgtR
          set d1 := if (svalList s0.condVal).contains tgtP then d
                    else dictInsert d (tid ++ "0")
                      { s0 with condVal := SVal.l (svalList s0.condVal ++ [tgtP]) } with hd1
          have hw1 : WellKeyed d1 ∧ (dictKeys d1).Nodup := by
            rw [hd1]
            by_cases hc : (svalList s0.condVal).contains tgtP = true
            · rw [if_pos hc]; exact hwn
            · rw [if_neg hc]
              exact ⟨wellKeyed_insert d _ _ hwn.1 hs0sid, keysNodup_insert d _ _ hwn.2⟩
          have hget1_0 : ∃ s0', dictGet d1 (tid ++ "0") = some s0' ∧
              s0'.condOp = "StringLike" ∧ s0'.condKey = "s3:prefix" ∧
              tgtP ∈ svalList s0'.condVal := by
            rw [hd1]
            by_cases hc : (svalList s0.condVal).contains tgtP = true
            · rw [if_pos hc]
              exact ⟨s0, hg0, hop, hkey, by simpa using hc⟩
            · rw [if_neg hc]
              refine ⟨_, dictGet_insert_self d _ _ hhk0, hop, hkey, ?_⟩
              show tgtP ∈ svalList (SVal.l (svalList s0.condVal ++ [tgtP]))
              simp [svalList]
          cases hg1 : dictGet d1 (tid ++ "1") with
          | none => rw [hg1] at h; cases h
          | some s1 =>
            rw [hg1] at h
            have hs1sid : s1.sid = some (tid ++ "1") := dictGet_sid d1 _ s1 hw1.1 hg1
            have hhk1 : dictHasKey d1 (tid ++ "1") = true := dictGet_hasKey d1 _ s1 hg1
            set d2 := if (svalList s1.resource).contains tgtR then d1
                      else dictInsert d1 (tid ++ "1")
                        { s1 with resource := SVal.l (svalList s1.resource ++ [tgtR]) } with hd2
            have hw2 : WellKeyed d2 ∧ (dictKeys d2).Nodup := by
              rw [hd2]
              by_cases hc : (svalList s1.resource).contains tgtR = true
              · rw [if_pos hc]; exact hw1
              · rw [if_neg hc]
                exact ⟨wellKeyed_insert d1 _ _ hw1.1 hs1sid, keysNodup_insert d1 _ _ hw1.2⟩
            have hget2_0 : ∃ s0', dictGet d2 (tid ++ "0") = some s0' ∧
                s0'.condOp = "StringLike" ∧ s0'.condKey = "s3:prefix" ∧
                tgtP ∈ svalList s0'.condVal := by
              obtain ⟨s0', hs0', hprops⟩ := hget1_0
              refine ⟨s0', ?_, hprops⟩
              rw [hd2]
              by_cases hc : (svalList s1.resource).contains tgtR = true
              · rw [if_pos hc]; exact hs0'
              · rw [if_neg hc]
                rw [dictGet_insert_of_ne d1 _ _ _ (tid0_ne_tid1 tid)]
                exact hs0'
            have hget2_1 : ∃ s1', dictGet d2 (tid ++ "1") = some s1' ∧
                tgtR ∈ svalList s1'.resource := by
              rw [hd2]
              by_cases hc : (svalList s1.resource).contains tgtR = true
              · rw [if_pos hc]
                exact ⟨s1, hg1, by simpa using hc⟩
              · rw [if_neg hc]
                refine ⟨_, dictGet_insert_self d1 _ _ hhk1, ?_⟩
                show tgtR ∈ svalList (SVal.l (svalList s1.resource ++ [tgtR]))
                simp [svalList]
            -- h identifies st'
            have hst' : st' = ⟨true, some ⟨dictValues d2⟩⟩ := by
              have h' := h
              simp only [← hd1, ← hd2] at h'
              cases h'
              rfl
            obtain ⟨s0', hs0', hop', hkey', hpl'⟩ := hget2_0
            obtain ⟨s1', hs1', hrl'⟩ := hget2_1
            have hnodup_v : ((dictValues d2).map Stmt.sid).Nodup := by
              rw [dictValues_sids d2 hw2.1]
              exact hw2.2.map (Option.some_injective _)
            have hs0v : dictGet (pairs (dictValues d2)) (tid ++ "0") = some s0' := by
              rw [pairs_dictValues d2 hw2.1]
              exact hs0'
            have hs1v : dictGet (pairs (dictValues d2)) (tid ++ "1") = some s1' := by
              rw [pairs_dictValues d2 hw2.1]
              exact hs1'
            rw [hst']
            exact manage_ap_stable tid excIds arn pfx (dictValues d2) true
              (dictValues_sid_isSome d2 hw2.1) hnodup_v s0' hs0v hop' hkey' hpl'
              s1' hs1v hrl'
        · rw [if_neg hcond] at h
          cases h

/- ## Claims -/

/-- C3: `reject_share` is meant to revoke the cross-account source
grant iff no other Approved share exists for the same target
environment, but `other_approved_share_object_exists` filters on
`models.Environment.environmentUri` without joining `Environment` to
`ShareObject`, so *any* Approved share in the database (here one for
environment `E2`) suppresses the revoke for `E1`, even though no
Approved share for `E1` exists. -/
theorem c3_wrong_table_filter_evidence :
    other_approved_share_object_exists
      ⟨[⟨"E1"⟩, ⟨"E2"⟩], [⟨"S2", "E2", "Approved"⟩]⟩ "E1" = true
    ∧ ((⟨[⟨"E1"⟩, ⟨"E2"⟩], [⟨"S2", "E2", "Approved"⟩]⟩ : DB).shares.filter
        (fun s => s.status == "Approved" && s.environmentUri == "E1")).isEmpty = true
    ∧ reject_share ⟨[⟨"E1"⟩, ⟨"E2"⟩], [⟨"S2", "E2", "Approved"⟩]⟩ "E1" [] [] =
        .ok [Ev.loadContext, Ev.deleteResourceLinks, Ev.cleanDb]
    ∧ Ev.revokeExternal ∉ [Ev.loadContext, Ev.deleteResourceLinks, Ev.cleanDb] := by
  decide

/-- C4: with an existing `targetDatasetAccessControlPolicy` whose first
statement does not reference the bucket, the document written back is
the JSON value `null` — `policy = list.extend(...)` evaluates to
`None` — not the existing policy with the four dataset resources
appended; when the bucket is already referenced the call skips the
write as claimed. -/
theorem c4_extend_returns_none_evidence :
    grant_target_role_access_policy "mybucket" "ap1" "eu-west-1" "111122223333"
      (some ⟨[{ effect := "Allow", action := .l ["s3:*"],
                resource := .l ["arn:aws:s3:::otherbucket"] }]⟩)
      = some PolicyWrite.writeNull
    ∧ grant_target_role_access_policy "mybucket" "ap1" "eu-west-1" "111122223333"
      (some ⟨[{ effect := "Allow", action := .l ["s3:*"],
                resource := .l ["arn:aws:s3:::mybucket"] }]⟩)
      = some PolicyWrite.skip := by
  decide

/-- C6 counterexample: a shadow-catalog object `X` outside this share's
table list that still exists as a real source table but is referenced
by another Approved share item (`isShared X = true`) is deleted from
the shadow catalog *without* any revoke being issued, contradicting
the claim that a revoke is issued for each such orphan. -/
theorem c6_counterexample :
    clean_shared_database ["X"] [] (fun _ => true) (fun _ => true) = ([], ["X"])
    ∧ "X" ∉ (clean_shared_database ["X"] [] (fun _ => true) (fun _ => true)).1 := by
  decide

/-- C6 (amended): `clean_shared_database` deletes from the shadow
catalog exactly the names not in the share's table list; among those it
issues a revoke only for names that still exist as source tables *and*
are not referenced by any other Approved share item; names in the
share's table list are untouched. -/
theorem c6_sweeper_amended (shadow shared : List String)
    (isShared srcExists : String → Bool) :
    (clean_shared_database shadow shared isShared srcExists).2 =
      shadow.filter (fun n => !(shared.contains n))
    ∧ (clean_shared_database shadow shared isShared srcExists).1 =
      shadow.filter (fun n => !(shared.contains n) && (!(isShared n) && srcExists n))
    ∧ ∀ n, shared.contains n = true →
        n ∉ (clean_shared_database shadow shared isShared srcExists).2 := by
  rw [clean_shared_database_spec]
  refine ⟨rfl, rfl, ?_⟩
  intro n hn hmem
  have h2 := (List.mem_filter.mp hmem).2
  have hn' : n ∈ shared := by simpa using hn
  simp [hn'] at h2

theorem c6_sweeper_amended_witness :
    (["A"].contains "A" = true)
    ∧ "A" ∉ (clean_shared_database ["A", "X"] ["A"] (fun _ => false) (fun _ => true)).2 :=
  ⟨by decide,
   (c6_sweeper_amended ["A", "X"] ["A"] (fun _ => false) (fun _ => true)).2.2 "A" (by decide)⟩

/-- C7: a rejected share containing one table whose resource link no
longer exists in the target shadow database
(`Glue.table_exists` false) has its item moved to `Revoke_In_Progress`
and then left there: the run completes with no terminal status for the
item, because the `Revoke_Share_Succeeded` transition sits inside the
`if Glue.table_exists(...)` branch. -/
theorem c7_missing_terminal_status_evidence :
    revoke_resource_links_access_on_target_account 0 [⟨true, false, false⟩] =
      .ok [Ev.setStatus false 0 .Revoke_In_Progress]
    ∧ finalStatus false 0 [Ev.setStatus false 0 .Revoke_In_Progress] =
        some Status.Revoke_In_Progress
    ∧ Status.Revoke_In_Progress ≠ Status.Revoke_Share_Succeeded
    ∧ Status.Revoke_In_Progress ≠ Status.Revoke_Share_Failed := by
  decide

/-- C8: revoking the legacy `EVERYONE` grant never raises (the whole
call is wrapped in `except ClientError: log.warning`), and when the
batch-revoke response reports only benign "already has no such grant"
failures, even the inner `batch_revoke_permissions` already returns
normally — so the per-item sequence cannot reach `Share_Failed` on
account of this step. -/
theorem c8_everyone_revoke_tolerated :
    (∀ (α : Type) (api : List α → Except ClientErr (List LFFailure)) (entry : α),
       revoke_iamallowedgroups_super_permission_from_table api entry = .ok ())
    ∧ (∀ (α : Type) (api : List α → Except ClientErr (List LFFailure))
         (entry : α) (fs : List LFFailure),
         api [entry] = .ok fs → (∀ f ∈ fs, benign_failure f = true) →
         batch_revoke_permissions api [entry] = .ok ()) := by
  constructor
  · intro α api entry
    unfold revoke_iamallowedgroups_super_permission_from_table
    cases h : batch_revoke_permissions api [entry] <;> simp
  · intro α api entry fs hapi hben
    have hch : chunksOf20 [entry] = [[entry]] := rfl
    have hany : fs.any (fun f => !(benign_failure f)) = false := by
      rw [List.any_eq_false]
      intro f hf
      simp [hben f hf]
    have hrun : runChunks api (chunksOf20 [entry]) [] = (fs, none) := by
      rw [hch]
      simp [runChunks, hapi]
    simp only [batch_revoke_permissions, hrun]
    cases hfs : fs.isEmpty <;> simp only [hfs, hany, Bool.false_eq_true, if_false, if_true]

theorem c8_everyone_revoke_tolerated_witness :
    ((fun _ => Except.ok [⟨"InvalidInputException", "Grantee has no permissions on X"⟩] :
        List Nat → Except ClientErr (List LFFailure)) [0] =
      Except.ok [⟨"InvalidInputException", "Grantee has no permissions on X"⟩])
    ∧ (∀ f ∈ [(⟨"InvalidInputException", "Grantee has no permissions on X"⟩ : LFFailure)],
        benign_failure f = true)
    ∧ revoke_iamallowedgroups_super_permission_from_table
        (fun _ => Except.ok [⟨"InvalidInputException", "Grantee has no permissions on X"⟩] :
          List Nat → Except ClientErr (List LFFailure)) 0 = .ok ()
    ∧ batch_revoke_permissions
        (fun _ => Except.ok [⟨"InvalidInputException", "Grantee has no permissions on X"⟩] :
          List Nat → Except ClientErr (List LFFailure)) [0] = .ok () :=
  ⟨rfl, by decide,
   c8_everyone_revoke_tolerated.1 Nat _ 0,
   c8_everyone_revoke_tolerated.2 Nat _ 0 _ rfl (by decide)⟩

/-- C10: when a chunk's `batch_revoke_permissions` API call itself
raises a `ClientError` while the accumulated per-entry failures list is
still empty, the handler's loop over recorded failures runs zero times
and the function returns normally, silently reporting success. -/
theorem c10_api_error_swallowed {α : Type}
    (api : List α → Except ClientErr (List LFFailure)) (entries : List α) (e : ClientErr)
    (h : runChunks api (chunksOf20 entries) [] = ([], some e)) :
    batch_revoke_permissions api entries = .ok () := by
  simp [batch_revoke_permissions, h]

theorem c10_api_error_swallowed_witness :
    runChunks (fun _ => Except.error ⟨"ThrottlingException", "Rate exceeded"⟩ :
        List Nat → Except ClientErr (List LFFailure))
      (chunksOf20 ([0] : List Nat)) [] = ([], some ⟨"ThrottlingException", "Rate exceeded"⟩)
    ∧ batch_revoke_permissions
        (fun _ => Except.error ⟨"ThrottlingException", "Rate exceeded"⟩ :
          List Nat → Except ClientErr (List LFFailure)) ([0] : List Nat) = .ok () :=
  ⟨rfl, c10_api_error_swallowed _ _ _ rfl⟩

/-- C5: `batch_revoke_permissions` processes its entries in consecutive
chunks of at most 20 (45 entries yield chunks of 20, 20 and 5); when
every chunk call returns a response, the call raises exactly when some
reported per-entry failure is not a benign
`InvalidInputException`/"Grantee has no permissions"/"No permissions
revoked" failure, and returns normally when every reported failure is
benign. -/
theorem c5_batch_revoke_chunking {α : Type}
    (api : List α → Except ClientErr (List LFFailure)) (entries : List α)
    (hok : ∀ c ∈ chunksOf20 entries, ∃ fs, api c = Except.ok fs) :
    (chunksOf20 entries).flatten = entries
    ∧ (∀ c ∈ chunksOf20 entries, c.length ≤ 20)
    ∧ (entries.length = 45 → (chunksOf20 entries).map List.length = [20, 20, 5])
    ∧ ((∃ e, batch_revoke_permissions api entries = .error e) ↔
        ∃ f ∈ (runChunks api (chunksOf20 entries) []).1, benign_failure f = false) := by
  refine ⟨chunksOf20_join entries.length entries (Nat.le_refl _),
          chunksOf20_bounded entries.length entries (Nat.le_refl _),
          chunksOf20_of_45 entries, ?_⟩
  obtain ⟨gs, hgs⟩ := runChunks_all_ok api (chunksOf20 entries) [] hok
  rw [List.nil_append] at hgs
  simp only [batch_revoke_permissions, hgs]
  cases hfs : gs.isEmpty with
  | true =>
    have : gs = [] := by
      cases gs with
      | nil => rfl
      | cons x xs => simp at hfs
    subst this
    simp
  | false =>
    cases hany : gs.any (fun f => !(benign_failure f)) with
    | true =>
      simp only [hfs, hany, if_true, if_false, Bool.false_eq_true]
      constructor
      · intro _
        obtain ⟨f, hf, hb⟩ := List.any_eq_true.mp hany
        exact ⟨f, hf, by simpa using hb⟩
      · intro _
        exact ⟨batch_revoke_failures_error, rfl⟩
    | false =>
      simp only [hfs, hany, if_false, Bool.false_eq_true]
      constructor
      · intro ⟨e, he⟩
        simp at he
      · intro ⟨f, hf, hb⟩
        have := List.any_eq_false.mp hany f hf
        simp [hb] at this

theorem c5_batch_revoke_chunking_witness :
    (∀ c ∈ chunksOf20 (List.range 45),
      ∃ fs, (fun _ => Except.ok ([] : List LFFailure) :
        List Nat → Except ClientErr (List LFFailure)) c = Except.ok fs)
    ∧ ((chunksOf20 (List.range 45)).flatten = List.range 45
      ∧ (∀ c ∈ chunksOf20 (List.range 45), c.length ≤ 20)
      ∧ ((List.range 45).length = 45 →
          (chunksOf20 (List.range 45)).map List.length = [20, 20, 5])
      ∧ ((∃ e, batch_revoke_permissions
            (fun _ => Except.ok ([] : List LFFailure)) (List.range 45) = .error e) ↔
          ∃ f ∈ (runChunks (fun _ => Except.ok ([] : List LFFailure))
            (chunksOf20 (List.range 45)) []).1, benign_failure f = false)) :=
  ⟨fun _ _ => ⟨[], rfl⟩,
   c5_batch_revoke_chunking (fun _ => Except.ok ([] : List LFFailure)) (List.range 45)
     (fun _ _ => ⟨[], rfl⟩)⟩

theorem setEvents_append (tag : Bool) (k : Nat) (a b : List Ev) :
    setEvents tag k (a ++ b) = setEvents tag k a ++ setEvents tag k b := by
  simp [setEvents, List.filterMap_append]

theorem setEvents_itemLog_self (tag : Bool) (stIn stOk stFail : Status) (i : Nat)
    (t : ItemSpec) :
    setEvents tag i (itemLog tag stIn stOk stFail i t) =
      stIn :: (if t.grantRaises then [stFail] else [stOk]) := by
  cases hg : t.grantRaises <;> simp [itemLog, setEvents, hg]

theorem setEvents_itemLog_of_ne (tag : Bool) (stIn stOk stFail : Status) (i k : Nat)
    (t : ItemSpec) (h : k ≠ i) :
    setEvents tag k (itemLog tag stIn stOk stFail i t) = [] := by
  cases hg : t.grantRaises <;> simp [itemLog, setEvents, hg] <;> omega

theorem alarm_notMem_itemLog_of_ne (tag : Bool) (stIn stOk stFail : Status) (i k : Nat)
    (t : ItemSpec) (h : k ≠ i) :
    Ev.alarm tag k ∉ itemLog tag stIn stOk stFail i t := by
  cases hg : t.grantRaises
  · simp [itemLog, hg]
  · simp [itemLog, hg]
    omega

theorem getLast?_cons_ite (stIn stFail stOk : Status) (c : Bool) :
    (stIn :: if c then [stFail] else [stOk]).getLast? = some (if c then stFail else stOk) := by
  cases c <;> rfl

/-- Events emitted by `runShareLoop` starting at index `i` never touch
an item index below `i`. -/
theorem runShareLoop_lower_bound (tag : Bool) (stIn stOk stFail : Status) :
    ∀ (items : List ItemSpec) (i : Nat) (log : List Ev),
    runShareLoop tag stIn stOk stFail i items = .ok log →
    ∀ k, k < i → setEvents tag k log = [] ∧ Ev.alarm tag k ∉ log := by
  intro items
  induction items with
  | nil =>
    intro i log h k _
    simp only [runShareLoop] at h
    cases h
    exact ⟨rfl, by simp⟩
  | cons t rest ih =>
    intro i log h k hk
    simp only [runShareLoop] at h
    cases hf : t.itemFound with
    | false => rw [hf] at h; simp at h
    | true =>
      rw [hf] at h
      simp only [if_true] at h
      cases hr : runShareLoop tag stIn stOk stFail (i + 1) rest with
      | error e => rw [hr] at h; simp at h
      | ok logRest =>
        rw [hr] at h
        simp only [Except.ok.injEq] at h
        subst h
        have hne : k ≠ i := Nat.ne_of_lt hk
        obtain ⟨h1, h2⟩ := ih (i + 1) logRest hr k (Nat.lt_succ_of_lt hk)
        refine ⟨?_, ?_⟩
        · rw [setEvents_append, setEvents_itemLog_of_ne tag stIn stOk stFail i k t hne, h1]
          rfl
        · intro hmem
          rcases List.mem_append.mp hmem with hmem1 | hmem2
          · exact alarm_notMem_itemLog_of_ne tag stIn stOk stFail i k t hne hmem1
          · exact h2 hmem2

/-- Shape of a successful `runShareLoop` run: every item is processed,
every found item ends in exactly its terminal status, and failures
emit an alarm. -/
theorem runShareLoop_spec (tag : Bool) (stIn stOk stFail : Status) :
    ∀ (items : List ItemSpec) (i : Nat), (∀ t ∈ items, t.itemFound = true) →
    ∃ log, runShareLoop tag stIn stOk stFail i items = .ok log ∧
      ∀ j t, items.get? j = some t →
        finalStatus tag (i + j) log = some (if t.grantRaises then stFail else stOk)
        ∧ (t.grantRaises = true → Ev.alarm tag (i + j) ∈ log) := by
  intro items
  induction items with
  | nil =>
    intro i _
    refine ⟨[], rfl, ?_⟩
    intro j t hj
    simp at hj
  | cons t rest ih =>
    intro i hfound
    have hft : t.itemFound = true := hfound t (by simp)
    obtain ⟨logRest, hrest, hspec⟩ := ih (i + 1) (fun t' ht' => hfound t' (by simp [ht']))
    refine ⟨itemLog tag stIn stOk stFail i t ++ logRest, ?_, ?_⟩
    · simp only [runShareLoop, hft, if_true, hrest]
    · intro j t' hj
      cases j with
      | zero =>
        simp only [List.get?] at hj
        cases hj
        constructor
        · have hlow := (runShareLoop_lower_bound tag stIn stOk stFail rest (i + 1) logRest hrest
            i (Nat.lt_succ_self i)).1
          rw [Nat.add_zero, finalStatus, setEvents_append,
              setEvents_itemLog_self, hlow, List.append_nil]
          exact getLast?_cons_ite _ _ _ _
        · intro hg
          apply List.mem_append.mpr
          left
          simp [itemLog, hg]
      | succ j =>
        simp only [List.get?] at hj
        have harith : i + (j + 1) = (i + 1) + j := by omega
        obtain ⟨hfs, hal⟩ := hspec j t' hj
        constructor
        · rw [harith, finalStatus, setEvents_append,
              setEvents_itemLog_of_ne tag stIn stOk stFail i ((i + 1) + j) t (by omega),
              List.nil_append]
          exact hfs
        · intro hg
          rw [harith]
          exact List.mem_append.mpr (Or.inr (hal hg))

/-- C2: when every item row exists, neither `share_tables` nor
`share_folders` lets an item's grant exception escape: the loop returns
normally, each raising item ends in `Share_Failed` with an alarm
emitted, each non-raising item ends in `Share_Succeeded`, and every
item in the list — including those after a failure — is processed to a
terminal status. -/
theorem c2_item_failure_isolated (tables folders : List ItemSpec)
    (ht : ∀ t ∈ tables, t.itemFound = true)
    (hf : ∀ t ∈ folders, t.itemFound = true) :
    (∃ log, share_tables 0 tables = .ok log ∧
      ∀ j t, tables.get? j = some t →
        finalStatus false j log =
          some (if t.grantRaises then Status.Share_Failed else Status.Share_Succeeded)
        ∧ (t.grantRaises = true → Ev.alarm false j ∈ log))
    ∧ (∃ log, share_folders 0 folders = .ok log ∧
      ∀ j t, folders.get? j = some t →
        finalStatus true j log =
          some (if t.grantRaises then Status.Share_Failed else Status.Share_Succeeded)
        ∧ (t.grantRaises = true → Ev.alarm true j ∈ log)) := by
  constructor
  · obtain ⟨log, hlog, hspec⟩ :=
      runShareLoop_spec false .Share_In_Progress .Share_Succeeded .Share_Failed tables 0 ht
    refine ⟨log, hlog, ?_⟩
    intro j t hj
    have := hspec j t hj
    rwa [Nat.zero_add] at this
  · obtain ⟨log, hlog, hspec⟩ :=
      runShareLoop_spec true .Share_In_Progress .Share_Succeeded .Share_Failed folders 0 hf
    refine ⟨log, hlog, ?_⟩
    intro j t hj
    have := hspec j t hj
    rwa [Nat.zero_add] at this

theorem c2_item_failure_isolated_witness :
    ((∀ t ∈ [(⟨true, true⟩ : ItemSpec), ⟨true, false⟩], t.itemFound = true)
      ∧ (∀ t ∈ [(⟨true, true⟩ : ItemSpec)], t.itemFound = true))
    ∧ ((∃ log, share_tables 0 [(⟨true, true⟩ : ItemSpec), ⟨true, false⟩] = .ok log ∧
        ∀ j t, [(⟨true, true⟩ : ItemSpec), ⟨true, false⟩].get? j = some t →
          finalStatus false j log =
            some (if t.grantRaises then Status.Share_Failed else Status.Share_Succeeded)
          ∧ (t.grantRaises = true → Ev.alarm false j ∈ log))
      ∧ (∃ log, share_folders 0 [(⟨true, true⟩ : ItemSpec)] = .ok log ∧
        ∀ j t, [(⟨true, true⟩ : ItemSpec)].get? j = some t →
          finalStatus true j log =
            some (if t.grantRaises then Status.Share_Failed else Status.Share_Succeeded)
          ∧ (t.grantRaises = true → Ev.alarm true j ∈ log))) :=
  ⟨⟨by decide, by decide⟩,
   c2_item_failure_isolated [⟨true, true⟩, ⟨true, false⟩] [⟨true, true⟩]
     (by decide) (by decide)⟩

/-- C9 counterexample: in `approve_share`, the reconciliation sweep of
the shared database (`clean_shared_database`, §4.5's sweeper) runs
*between* the table workflow and the folder workflow, not after all
folder processing as the claim orders the phases: with one table and
one folder, the `cleanDb` phase appears strictly before the folder's
first status transition. -/
theorem c9_counterexample :
    approve_share [⟨true, false⟩] [⟨true, false⟩] =
      .ok [Ev.loadContext,
           Ev.setStatus false 0 .Share_In_Progress, Ev.setStatus false 0 .Share_Succeeded,
           Ev.cleanDb,
           Ev.setStatus true 0 .Share_In_Progress, Ev.setStatus true 0 .Share_Succeeded,
           Ev.cleanFolders]
    ∧ List.indexOf Ev.cleanDb
        [Ev.loadContext,
         Ev.setStatus false 0 .Share_In_Progress, Ev.setStatus false 0 .Share_Succeeded,
         Ev.cleanDb,
         Ev.setStatus true 0 .Share_In_Progress, Ev.setStatus true 0 .Share_Succeeded,
         Ev.cleanFolders]
      < List.indexOf (Ev.setStatus true 0 .Share_In_Progress)
        [Ev.loadContext,
         Ev.setStatus false 0 .Share_In_Progress, Ev.setStatus false 0 .Share_Succeeded,
         Ev.cleanDb,
         Ev.setStatus true 0 .Share_In_Progress, Ev.setStatus true 0 .Share_Succeeded,
         Ev.cleanFolders] := by
  decide

/-- C9 (amended): every successful `approve_share` run performs, in
order: load share context, the table workflow per table, the
shared-database sweep, the folder workflow per folder, then the
shared-folders sweep; every successful `reject_share` run performs:
load context, per-table resource-link revoke, resource-link deletion,
the shared-database sweep, the conditional source-account revoke, and
the folder-level revokes as its last phase. -/
theorem c9_phase_order_amended :
    (∀ tables folders log, approve_share tables folders = .ok log →
      ∃ tlog flog, share_tables 0 tables = .ok tlog ∧ share_folders 0 folders = .ok flog ∧
        log = Ev.loadContext :: tlog ++ Ev.cleanDb :: flog ++ [Ev.cleanFolders])
    ∧ (∀ db uri tables folders log, reject_share db uri tables folders = .ok log →
      ∃ tlog flog, revoke_resource_links_access_on_target_account 0 tables = .ok tlog ∧
        revoke_shared_folders 0 folders = .ok flog ∧
        log = Ev.loadContext :: tlog ++ [Ev.deleteResourceLinks, Ev.cleanDb] ++
          (if other_approved_share_object_exists db uri then []
           else [Ev.revokeExternal]) ++ flog) := by
  constructor
  · intro tables folders log h
    simp only [approve_share] at h
    cases h1 : share_tables 0 tables with
    | error e => rw [h1] at h; simp at h
    | ok tlog =>
      rw [h1] at h
      cases h2 : share_folders 0 folders with
      | error e => rw [h2] at h; simp at h
      | ok flog =>
        rw [h2] at h
        simp only [Except.ok.injEq] at h
        exact ⟨tlog, flog, rfl, rfl, h.symm⟩
  · intro db uri tables folders log h
    simp only [reject_share] at h
    cases h1 : revoke_resource_links_access_on_target_account 0 tables with
    | error e => rw [h1] at h; simp at h
    | ok tlog =>
      rw [h1] at h
      cases h2 : revoke_shared_folders 0 folders with
      | error e => rw [h2] at h; simp at h
      | ok flog =>
        rw [h2] at h
        simp only [Except.ok.injEq] at h
        exact ⟨tlog, flog, rfl, rfl, h.symm⟩

/-- C1 counterexample: on an access-point policy whose statements carry
a duplicate Sid `X`, the second application of
`manage_access_point_and_policy` is not a no-op: the Sid-keyed dict
rebuild (`list(statements.values())`) collapses the two `X` statements
into one, so applying the step twice yields a different document from
applying it once. -/
theorem c1_counterexample :
    manage_access_point_and_policy "R" [] "a" "p"
      ⟨true, some ⟨[{ sid := some "X" }, { sid := some "X" }]⟩⟩ =
      some ⟨true, some ⟨[{ sid := some "X" }, { sid := some "X" }] ++
        generate_access_point_policy_template "R" "a" "p"⟩⟩
    ∧ manage_access_point_and_policy "R" [] "a" "p"
        ⟨true, some ⟨[{ sid := some "X" }, { sid := some "X" }] ++
          generate_access_point_policy_template "R" "a" "p"⟩⟩ ≠
      some ⟨true, some ⟨[{ sid := some "X" }, { sid := some "X" }] ++
        generate_access_point_policy_template "R" "a" "p"⟩⟩ := by
  decide

/-- C1 (amended): the bucket-policy and key-policy mutation steps are
unconditionally idempotent; the access-point step is idempotent
provided the pre-existing policy's statement Sids are pairwise distinct
and contain `<roleId>1` only together with `<roleId>0` (a duplicate
Sid is collapsed by the second run's Sid-keyed rebuild, changing the
document). -/
theorem c1_policy_steps_idempotent :
    (∀ (excIds : List String) (src bucket : String) (doc : Policy),
      manage_bucket_policy excIds src bucket (manage_bucket_policy excIds src bucket doc) =
        manage_bucket_policy excIds src bucket doc)
    ∧ (∀ (tid : String) (excIds : List String) (arn pfx : String) (st st' : APState),
        goodSids tid st →
        manage_access_point_and_policy tid excIds arn pfx st = some st' →
        manage_access_point_and_policy tid excIds arn pfx st' = some st')
    ∧ (∀ (tid : String) (st : Option Policy),
        update_dataset_bucket_key_policy tid (update_dataset_bucket_key_policy tid st) =
          update_dataset_bucket_key_policy tid st) :=
  ⟨manage_bucket_policy_idem,
   manage_access_point_and_policy_idem,
   update_dataset_bucket_key_policy_idem⟩

theorem c1_policy_steps_idempotent_witness :
    (goodSids "R" ⟨false, none⟩
     ∧ manage_access_point_and_policy "R" [] "a" "p" ⟨false, none⟩ =
        some ⟨true, some ⟨generate_access_point_policy_template "R" "a" "p" ++
          [access_point_admin_statement [] "a"]⟩⟩)
    ∧ manage_access_point_and_policy "R" [] "a" "p"
        ⟨true, some ⟨generate_access_point_policy_template "R" "a" "p" ++
          [access_point_admin_statement [] "a"]⟩⟩ =
        some ⟨true, some ⟨generate_access_point_policy_template "R" "a" "p" ++
          [access_point_admin_statement [] "a"]⟩⟩
    ∧ manage_bucket_policy [] "1" "b" (manage_bucket_policy [] "1" "b" ⟨[]⟩) =
        manage_bucket_policy [] "1" "b" ⟨[]⟩
    ∧ update_dataset_bucket_key_policy "R"
        (update_dataset_bucket_key_policy "R" (some ⟨[]⟩)) =
        update_dataset_bucket_key_policy "R" (some ⟨[]⟩) :=
  ⟨⟨trivial, by decide⟩,
   c1_policy_steps_idempotent.2.1 "R" [] "a" "p" ⟨false, none⟩ _ trivial (by decide),
   c1_policy_steps_idempotent.1 [] "1" "b" ⟨[]⟩,
   c1_policy_steps_idempotent.2.2 "R" (some ⟨[]⟩)⟩

theorem c9_phase_order_amended_witness :
    (approve_share [] [] = .ok [Ev.loadContext, Ev.cleanDb, Ev.cleanFolders])
    ∧ (∃ tlog flog, share_tables 0 [] = .ok tlog ∧ share_folders 0 [] = .ok flog ∧
        [Ev.loadContext, Ev.cleanDb, Ev.cleanFolders] =
          Ev.loadContext :: tlog ++ Ev.cleanDb :: flog ++ [Ev.cleanFolders]) :=
  ⟨rfl, c9_phase_order_amended.1 [] [] [Ev.loadContext, Ev.cleanDb, Ev.cleanFolders] rfl⟩

end ShareManager
